import Mathlib

/-!
Verification of the aspen voice-agent pipeline.

This file gives a shallow embedding, over `List Char`, of the pure parts of
the pipeline: the incremental sentence splitter of `responder.py`, the
conversation store of `conversation.py`, the VAD state machine and the
window-alignment protocol of `segmenter.py`, the word loop of `speaker.py`,
and the word queue of `tw_outgoing.py`.  Theorems about these definitions
settle the specification claims.

Strings are modelled as `List Char` (Python `str` indexes by code point).
Wall-clock durations (Python floats) are modelled as exact rationals.
-/

set_option maxHeartbeats 1000000

abbrev Str := List Char

/-! ## Python string primitives -/

/-- The characters for which Python `str.isspace()` returns `True`
(the set stripped by `str.strip()` / `str.lstrip()` with no argument). -/
def pyIsSpace (c : Char) : Bool :=
  c ∈ ([' ', '\t', '\n', '\r', '\x0b', '\x0c',
        '\x1c', '\x1d', '\x1e', '\x1f', '\x85', '\xa0',
        '\u1680', '\u2000', '\u2001', '\u2002', '\u2003', '\u2004',
        '\u2005', '\u2006', '\u2007', '\u2008', '\u2009', '\u200a',
        '\u2028', '\u2029', '\u202f', '\u205f', '\u3000'] : List Char)

/-- Python `str.lstrip()`. -/
def lstrip (s : Str) : Str := s.dropWhile pyIsSpace

/-- Python `str.rstrip()`. -/
def rstrip (s : Str) : Str := s.rdropWhile pyIsSpace

/-- Python `str.strip()`: leading and trailing whitespace removed. -/
def pyStrip (s : Str) : Str := lstrip (rstrip s)

/-! ## Sentence splitter (`responder.py`, `segment_text_by_regex`) -/

/-- `END_PUNCTUATIONS` of `responder.py`. -/
def END_PUNCTUATIONS : List Str :=
  [".", "!", "?", "。", "！", "？", "...", "。。。"].map String.toList

/-- `ABBREVIATIONS` of `responder.py`. -/
def ABBREVIATIONS : List Str :=
  ["Mr.", "Mrs.", "Dr.", "Prof.", "Inc.", "Ltd.", "Jr.", "Sr.",
   "e.g.", "i.e.", "vs.", "St.", "Rd."].map String.toList

/-- The set of characters matched by the bracket expression of the pattern
built in `segment_text_by_regex`.  The source joins the escaped
`END_PUNCTUATIONS` with `"|"` INSIDE a character class, producing
`[\.|\!|\?|。|！|？|\.\.\.|。。。]`; a bracket expression matches single
characters, so its members are `.`, `|`, `!`, `?`, `。`, `！`, `？`
(the three-dot entries contribute only `.`, and the literal `|` join
separators are themselves members). -/
def isEndPunctChar (c : Char) : Bool :=
  c ∈ (['.', '|', '!', '?', '。', '！', '？'] : List Char)

/-- Models one `re.search(pattern, remaining_text)` step of
`segment_text_by_regex` together with `end_pos = match.end(1)`:
since `.*?` is non-greedy, a match — wherever `re.search` starts it —
always ends immediately after the first character of the class
(`.` does not cross a newline, but that only moves the start of the
match, never its end).  Returns `(remaining_text[:end_pos],
remaining_text[end_pos:])`, or `none` when there is no match. -/
def regexFirstMatch : Str → Option (Str × Str)
  | [] => none
  | c :: cs =>
    if isEndPunctChar c then some ([c], cs)
    else
      match regexFirstMatch cs with
      | none => none
      | some (p, r) => some (c :: p, r)

/-- `any(potential_sentence.endswith(abbrev) for abbrev in ABBREVIATIONS)`
of `segment_text_by_regex`. -/
def endsWithAbbrev (s : Str) : Bool := ABBREVIATIONS.any (fun a => a.isSuffixOf s)

/-- The `while remaining_text:` loop of `segment_text_by_regex`.
Each iteration strictly shortens the text, so running it with any fuel
of at least `rem.length` iterations computes the loop exactly
(`segmentLoop_fuel` below); structural recursion on the fuel keeps the
definition kernel-computable. -/
def segmentLoop : ℕ → Str → List Str × Str
  | 0, rem => ([], rem)
  | fuel + 1, rem =>
    match regexFirstMatch rem with
    | none => ([], rem)
    | some (pre, rest0) =>
      let cand := pyStrip pre
      let rest := lstrip rest0
      if endsWithAbbrev cand then segmentLoop fuel rest
      else
        let res := segmentLoop fuel rest
        (cand :: res.1, res.2)

/-- `segment_text_by_regex` of `responder.py`: returns the list of complete
sentences and the remaining incomplete text.  (The early return on empty
input coincides with the general path.) -/
def segment_text_by_regex (text : Str) : List Str × Str :=
  segmentLoop text.length (pyStrip text)

/-- The splitter loop run to completion (fuel equal to the text length is
always sufficient, see `segmentLoop_of_le`). -/
def segmentRun (rem : Str) : List Str × Str := segmentLoop rem.length rem

/-! ## Responder token loop (`responder.py`, `Responder.loop`) -/

/-- How the `for text in stream.text_stream:` loop of `Responder.loop` ended:
the stream was exhausted, `break` on `speaking_event`, or `return` on
`exit_event`. -/
inductive StreamEnd where
  | natural : StreamEnd
  | bargeIn : StreamEnd
  | exited : StreamEnd
deriving DecidableEq

/-- The `for text in stream.text_stream:` loop of `Responder.loop`.  Each
stream event carries the values of `speaking_event.is_set()` and
`exit_event.is_set()` observed at the top of that iteration together with the
text fragment.  Returns the sentences pushed to the output queue (in order,
only truthy ones per `if sentence:`), the final `buffer`, and how the loop
ended. -/
def responderTokenLoop : List (Bool × Bool × Str) → Str → List Str × Str × StreamEnd
  | [], buf => ([], buf, StreamEnd.natural)
  | (spk, ext, t) :: rest, buf =>
    if spk then ([], buf, StreamEnd.bargeIn)
    else if ext then ([], buf, StreamEnd.exited)
    else
      let res := segment_text_by_regex (buf ++ t)
      let res2 := responderTokenLoop rest res.2
      ((res.1.filter (fun s => s ≠ [])) ++ res2.1, res2.2.1, res2.2.2)

/-- The sentences `Responder.loop` pushes for one LLM stream: the token loop
starting from an empty `buffer`, followed by the trailing-fragment flush
`if buffer.strip(): output_queue.put(buffer.strip())` — which is skipped only
when the loop ended by `return` on `exit_event`. -/
def responderEmits (events : List (Bool × Bool × Str)) : List Str :=
  let res := responderTokenLoop events []
  match res.2.2 with
  | StreamEnd.exited => res.1
  | _ => if pyStrip res.2.1 ≠ [] then res.1 ++ [pyStrip res.2.1] else res.1

/-- Feed text fragments through the responder with `speaking`/`exit` never
set, as in an uninterrupted LLM stream. -/
def pureEvents (frags : List Str) : List (Bool × Bool × Str) :=
  frags.map (fun t => (false, false, t))

/-! ## Conversation store (`conversation.py`) -/

inductive Role where
  | user : Role
  | assistant : Role
deriving DecidableEq

/-- `content.startswith((".", "!", "?", ","))` of `Conversation.append`:
each tuple element is a single character, so this tests the first character. -/
def startsWithPunct (content : Str) : Bool :=
  match content with
  | [] => false
  | c :: _ => c ∈ (['.', '!', '?', ','] : List Char)

/-- `Conversation.append`: when the last message exists and has the same role,
collapse into it — `f"{last_content}{spacer}{content}"` with
`spacer = " " if (last_content and not content.startswith((".", "!", "?", ","))) else ""` —
otherwise push a new `{role, content}` entry.  (Contents are always strings
here, so the `isinstance(last_content, str)` guard of the source is always
taken.)  Returns the new message list. -/
def convAppend (msgs : List (Role × Str)) (role : Role) (content : Str) : List (Role × Str) :=
  match msgs.getLast? with
  | some last =>
    if last.1 = role then
      msgs.dropLast ++
        [(role, last.2 ++
          (if last.2 ≠ [] ∧ startsWithPunct content = false then [' '] else []) ++ content)]
    else msgs ++ [(role, content)]
  | none => msgs ++ [(role, content)]

/-- A sequence of `append` calls starting from the empty conversation. -/
def convRun (appends : List (Role × Str)) : List (Role × Str) :=
  appends.foldl (fun m rc => convAppend m rc.1 rc.2) []

/-! ## Segmenter (`segmenter.py`) -/

/-- `Segmenter.PRE_SPEECH_BUFFER`: capacity of the ring pre-buffer. -/
def PRE_SPEECH_BUFFER : ℕ := 25

/-- `Segmenter.SILENCE_LIMIT`: consecutive silent windows ending an utterance. -/
def SILENCE_LIMIT : ℕ := 24

/-- `Segmenter.MIN_SPEECH_CHUNKS`: consecutive speech windows starting one. -/
def MIN_SPEECH_CHUNKS : ℕ := 3

/-- The mutable state of a `Segmenter`; audio samples are abstracted to an
arbitrary type `α` (the VAD verdict per window is an input, see
`processWindow`).  `buffer = []` models `self.buffer = None`. -/
structure SegState (α : Type) where
  currentSpeech : List (List α)
  preBuffer : List (List α)
  speechSamples : ℕ
  silenceSamples : ℕ
  recording : Bool
  speaking : Bool
  count : ℕ
  buffer : List α
deriving DecidableEq

/-- `self.pre_buffer.append(audio_chunk)` on a `deque(maxlen=PRE_SPEECH_BUFFER)`:
append on the right, dropping from the left beyond the capacity. -/
def pushPre {α : Type} (pb : List (List α)) (w : List α) : List (List α) :=
  let b := pb ++ [w]
  b.drop (b.length - PRE_SPEECH_BUFFER)

/-- Lines 110–135 of `Segmenter.loop`: per-window processing, given the VAD
verdict `isSpeech = (speech_prob > SPEECH_THRESHOLD)` (the model inference is
external).  `speaking` mirrors the `speaking_event` flag.  Returns the new
state and the utterance emitted to the output queue, if any. -/
def processWindow {α : Type} (s : SegState α) (w : List α) (isSpeech : Bool) :
    SegState α × Option (List α) :=
  let pb := pushPre s.preBuffer w
  if s.recording = false then
    let sc := if isSpeech then s.speechSamples + 1 else 0
    if MIN_SPEECH_CHUNKS ≤ sc then
      ({ s with
          preBuffer := pb
          speechSamples := sc
          currentSpeech := pb
          recording := true
          silenceSamples := 0
          speaking := true }, none)
    else
      ({ s with preBuffer := pb, speechSamples := sc }, none)
  else
    let cs := s.currentSpeech ++ [w]
    let sil := if isSpeech then 0 else s.silenceSamples + 1
    if SILENCE_LIMIT ≤ sil ∧ cs.isEmpty = false then
      ({ s with
          preBuffer := pb
          currentSpeech := []
          silenceSamples := sil
          recording := false
          speechSamples := 0
          count := s.count + 1
          speaking := false }, some cs.flatten)
    else
      ({ s with preBuffer := pb, currentSpeech := cs, silenceSamples := sil }, none)

/-- Lines 93–108 of `Segmenter.loop`: window alignment for one input frame.
Prepend the carry-over buffer; if the combined chunk is shorter than
`window_size` it becomes the new carry-over and no window is processed,
otherwise exactly `window_size` samples form the current window and the
excess becomes the new carry-over. -/
def alignFrame {α : Type} (windowSize : ℕ) (buffer frame : List α) :
    Option (List α) × List α :=
  let chunk := buffer ++ frame
  if chunk.length < windowSize then (none, chunk)
  else (some (chunk.take windowSize), chunk.drop windowSize)

/-- The alignment protocol folded over successive input frames, collecting
the windows handed to the VAD (one per frame at most). -/
def alignRun {α : Type} (windowSize : ℕ) (buffer : List α) :
    List (List α) → List (List α) × List α
  | [] => ([], buffer)
  | f :: fs =>
    match alignFrame windowSize buffer f with
    | (none, b1) => alignRun windowSize b1 fs
    | (some w, b1) =>
      let res := alignRun windowSize b1 fs
      (w :: res.1, res.2)

/-! ## Local sink (`speaker.py`) -/

/-- Helper for `pySplit` (`acc` is the current word reversed). -/
def pySplitAux : Str → Str → List Str
  | [], acc => if acc = [] then [] else [acc.reverse]
  | c :: cs, acc =>
    if pyIsSpace c then
      if acc = [] then pySplitAux cs [] else acc.reverse :: pySplitAux cs []
    else pySplitAux cs (c :: acc)

/-- Python `str.split()` with no arguments (`text.split()` in
`Speaker.loop`): split on whitespace runs, producing no empty words. -/
def pySplit (s : Str) : List Str := pySplitAux s []

/-- The per-word accounting loop of `Speaker.loop` (lines 56–63), given for
each iteration `i` the result of `speaking_event.wait(word_duration)` and of
`exit_event.is_set()`.  On `speaking`: stop playback, break.  On `exit`:
return.  Otherwise append the word to the conversation as `assistant`. -/
def speakerWordLoop (speak exitF : ℕ → Bool) :
    List Str → ℕ → List (Role × Str) → List (Role × Str)
  | [], _, conv => conv
  | w :: ws, i, conv =>
    if speak i then conv
    else if exitF i then conv
    else speakerWordLoop speak exitF ws (i + 1) (convAppend conv Role.assistant w)

/-- Lines 51–53 of `Speaker.loop`:
`word_duration = (len(audio_data) / sample_rate) / len(words)`.
Python raises `ZeroDivisionError` when `len(words) = 0`, modelled as `none`. -/
def speakerWordDuration (text : Str) (audioLen : ℕ) (sampleRate : ℚ) : Option ℚ :=
  let words := pySplit text
  if words.length = 0 then none
  else some ((audioLen : ℚ) / sampleRate / (words.length : ℚ))

/-- Modelled from the spec: `dur_per_word = duration / max(word_count, 1)`
(§4.6, Local speaker, step 4) — the claimed always-defined computation. -/
def specWordDuration (text : Str) (audioLen : ℕ) (sampleRate : ℚ) : ℚ :=
  (audioLen : ℚ) / sampleRate / (max (pySplit text).length 1 : ℚ)

/-! ## Telephony word queue (`tw_outgoing.py`) -/

/-- The `while self.word_queue and time_passed > 0:` loop of
`WordQueue.update`: pop `(duration, word)`, decrement, on overshoot put the
entry back at the head with the leftover duration, else the word is "spoken"
(appended to the conversation as `assistant`).  Returns the spoken words in
order and the remaining queue. -/
def wqConsume (timePassed : ℚ) : List (ℚ × Str) → List Str × List (ℚ × Str)
  | [] => ([], [])
  | (d, w) :: rest =>
    if timePassed ≤ 0 then ([], (d, w) :: rest)
    else
      if timePassed - d < 0 then ([], (-(timePassed - d), w) :: rest)
      else
        let res := wqConsume (timePassed - d) rest
        (w :: res.1, res.2)

/-- `WordQueue` sub-state: `(remaining_duration, word)` entries and
`last_update_time` (wall-clock instants are modelled as exact rationals). -/
structure WQState where
  wordQueue : List (ℚ × Str)
  lastUpdateTime : ℚ
deriving DecidableEq

/-- `WordQueue.update` called at wall-clock time `now`: advance by
`now - last_update_time`, set `last_update_time := now`, consume the queue.
Returns the new state and the words appended to the conversation. -/
def wqUpdate (now : ℚ) (st : WQState) : WQState × List Str :=
  let res := wqConsume (now - st.lastUpdateTime) st.wordQueue
  (⟨res.2, now⟩, res.1)

/-- Cumulative duration of the first `n` queue entries. -/
def cumDur (q : List (ℚ × Str)) (n : ℕ) : ℚ := ((q.take n).map Prod.fst).sum

/-! ## Basic facts about the string primitives -/

theorem lstrip_idem (s : Str) : lstrip (lstrip s) = lstrip s :=
  List.dropWhile_idempotent _ _

theorem length_lstrip_le (s : Str) : (lstrip s).length ≤ s.length :=
  (List.dropWhile_suffix _).length_le

theorem length_rstrip_le (s : Str) : (rstrip s).length ≤ s.length := by
  have h := List.rdropWhile_prefix pyIsSpace s
  exact h.length_le

theorem length_pyStrip_le (s : Str) : (pyStrip s).length ≤ s.length :=
  le_trans (length_lstrip_le _) (length_rstrip_le _)

theorem head_not_space_of_lstrip {c : Char} {t : Str} (h : lstrip (c :: t) = c :: t) :
    pyIsSpace c = false := by
  by_contra hc
  rw [Bool.not_eq_false] at hc
  have h2 : lstrip (c :: t) = lstrip t := by
    simp [lstrip, List.dropWhile_cons, hc]
  have h3 : (lstrip t).length ≤ t.length := (List.dropWhile_suffix _).length_le
  rw [h] at h2
  have h4 := congrArg List.length h2
  simp only [List.length_cons] at h4
  omega

theorem lstrip_append_of_ne {a : Str} (b : Str) (ha : lstrip a ≠ []) :
    lstrip (a ++ b) = lstrip a ++ b := by
  have hne : ¬(List.dropWhile pyIsSpace a).isEmpty = true := by
    rw [List.isEmpty_iff]
    exact ha
  rw [lstrip, List.dropWhile_append, if_neg hne]
  rfl

theorem lstrip_append_self {a : Str} (b : Str) (ha : lstrip a = a) (hne : a ≠ []) :
    lstrip (a ++ b) = a ++ b := by
  have h : lstrip a ≠ [] := by
    rw [ha]
    exact hne
  rw [lstrip_append_of_ne b h, ha]

theorem rstrip_append_left {a : Str} (ha : rstrip a = a) (b : Str) :
    rstrip (a ++ b) = a ++ rstrip b := by
  unfold rstrip List.rdropWhile at ha ⊢
  rw [List.reverse_append, List.dropWhile_append]
  by_cases hb : (List.dropWhile pyIsSpace b.reverse).isEmpty = true
  · rw [if_pos hb]
    rw [List.isEmpty_iff] at hb
    rw [hb, List.reverse_nil, List.append_nil]
    exact ha
  · rw [if_neg hb, List.reverse_append, List.reverse_reverse]

theorem rstrip_eq_self_of_getLast? {s : Str} {e : Char} (h : s.getLast? = some e)
    (he : pyIsSpace e = false) : rstrip s = s := by
  have hne : s ≠ [] := by
    intro h0
    subst h0
    simp at h
  rw [rstrip, List.rdropWhile_eq_self_iff]
  intro hl
  have h2 : s.getLast hl = e := by
    have h3 := List.getLast?_eq_getLast s hl
    rw [h3] at h
    exact Option.some.inj h
  rw [h2, he]
  simp

theorem rstrip_last_not {s : Str} (h : rstrip s ≠ []) :
    ∃ e, (rstrip s).getLast? = some e ∧ pyIsSpace e = false := by
  have h2 := List.rdropWhile_last_not pyIsSpace s h
  refine ⟨(rstrip s).getLast h, List.getLast?_eq_getLast _ h, ?_⟩
  exact Bool.of_not_eq_true h2

theorem getLast?_lstrip {s : Str} (h : lstrip s ≠ []) :
    (lstrip s).getLast? = s.getLast? := by
  obtain ⟨t, ht⟩ := @List.dropWhile_suffix Char s pyIsSpace
  have h2 : t ++ lstrip s = s := ht
  conv_rhs => rw [← h2]
  rw [List.getLast?_append]
  cases hx : (lstrip s).getLast? with
  | none => exact absurd (List.getLast?_eq_none_iff.mp hx) h
  | some e => rfl

theorem lstrip_pyStrip (s : Str) : lstrip (pyStrip s) = pyStrip s := lstrip_idem _

theorem rstrip_pyStrip (s : Str) : rstrip (pyStrip s) = pyStrip s := by
  by_cases h : pyStrip s = []
  · rw [h]
    rfl
  · have h2 : rstrip s ≠ [] := by
      intro h0
      apply h
      unfold pyStrip
      rw [h0]
      rfl
    have h1 : (pyStrip s).getLast? = (rstrip s).getLast? := getLast?_lstrip h
    obtain ⟨e, he, hsp⟩ := rstrip_last_not h2
    exact rstrip_eq_self_of_getLast? (h1.trans he) hsp

/-! ## Structure of `regexFirstMatch` -/

theorem regexFirstMatch_some {l p r : Str} (h : regexFirstMatch l = some (p, r)) :
    l = p ++ r ∧ p ≠ [] ∧ regexFirstMatch p = some (p, []) ∧
      ∃ e, p.getLast? = some e ∧ isEndPunctChar e = true := by
  induction l generalizing p r with
  | nil => simp [regexFirstMatch] at h
  | cons c cs ih =>
    rw [regexFirstMatch] at h
    by_cases hc : isEndPunctChar c
    · rw [if_pos hc] at h
      simp only [Option.some.injEq, Prod.mk.injEq] at h
      obtain ⟨hp, hr⟩ := h
      subst hp
      subst hr
      refine ⟨rfl, by simp, ?_, c, by simp, hc⟩
      rw [regexFirstMatch, if_pos hc]
    · rw [if_neg hc] at h
      cases hm : regexFirstMatch cs with
      | none =>
        rw [hm] at h
        exact absurd h (by simp)
      | some pr =>
        rw [hm] at h
        obtain ⟨pp, rr⟩ := pr
        simp only [Option.some.injEq, Prod.mk.injEq] at h
        obtain ⟨hp, hr⟩ := h
        obtain ⟨heq, hne, hself, e, hlast, hend⟩ := ih hm
        subst hp
        subst hr
        refine ⟨by simp [heq], by simp, ?_, e, ?_, hend⟩
        · rw [regexFirstMatch, if_neg hc, hself]
        · rw [show (c :: pp : Str) = [c] ++ pp from rfl, List.getLast?_append, hlast]
          rfl

theorem regexFirstMatch_none_iff {l : Str} :
    regexFirstMatch l = none ↔ ∀ c ∈ l, isEndPunctChar c = false := by
  induction l with
  | nil => simp [regexFirstMatch]
  | cons c cs ih =>
    rw [regexFirstMatch]
    by_cases hc : isEndPunctChar c
    · simp only [if_pos hc]
      constructor
      · intro h
        exact absurd h (by simp)
      · intro h
        have h1 := h c (by simp)
        rw [hc] at h1
        simp at h1
    · simp only [if_neg hc]
      cases hm : regexFirstMatch cs with
      | none =>
        simp only [hm]
        constructor
        · intro _ x hx
          rcases List.mem_cons.mp hx with h1 | h1
          · subst h1
            exact Bool.of_not_eq_true hc
          · exact (ih.mp hm) x h1
        · intro _
          trivial
      | some pr =>
        simp only [hm]
        constructor
        · intro h
          simp at h
        · intro h
          have h2 : regexFirstMatch cs = none := ih.mpr (fun x hx => h x (by simp [hx]))
          rw [h2] at hm
          exact absurd hm (by simp)

theorem regexFirstMatch_append_some {a b p r : Str} (h : regexFirstMatch a = some (p, r)) :
    regexFirstMatch (a ++ b) = some (p, r ++ b) := by
  induction a generalizing p r with
  | nil => simp [regexFirstMatch] at h
  | cons c cs ih =>
    rw [regexFirstMatch] at h
    rw [List.cons_append, regexFirstMatch]
    by_cases hc : isEndPunctChar c
    · rw [if_pos hc] at h ⊢
      simp only [Option.some.injEq, Prod.mk.injEq] at h
      obtain ⟨hp, hr⟩ := h
      subst hp
      subst hr
      rfl
    · rw [if_neg hc] at h ⊢
      cases hm : regexFirstMatch cs with
      | none =>
        rw [hm] at h
        simp at h
      | some pr =>
        rw [hm] at h
        obtain ⟨pp, rr⟩ := pr
        simp only [Option.some.injEq, Prod.mk.injEq] at h
        obtain ⟨hp, hr⟩ := h
        rw [ih hm]
        subst hp
        subst hr
        rfl

theorem regexFirstMatch_append_none {a : Str} (h : regexFirstMatch a = none) (b : Str) :
    regexFirstMatch (a ++ b) =
      match regexFirstMatch b with
      | none => none
      | some pr => some (a ++ pr.1, pr.2) := by
  induction a with
  | nil =>
    simp only [List.nil_append]
    cases hb : regexFirstMatch b with
    | none => rfl
    | some pr => simp
  | cons c cs ih =>
    rw [regexFirstMatch] at h
    by_cases hc : isEndPunctChar c
    · rw [if_pos hc] at h
      exact absurd h (by simp)
    · rw [if_neg hc] at h
      cases hm : regexFirstMatch cs with
      | some pr =>
        rw [hm] at h
        simp at h
      | none =>
        rw [List.cons_append, regexFirstMatch, if_neg hc, ih hm]
        cases hb : regexFirstMatch b with
        | none => rfl
        | some pr => simp

/-! ## Fuel adequacy for the splitter loop -/

theorem segmentLoop_step (fuel : ℕ) (rem : Str) :
    segmentLoop (fuel + 1) rem =
      match regexFirstMatch rem with
      | none => ([], rem)
      | some pr =>
        if endsWithAbbrev (pyStrip pr.1) then segmentLoop fuel (lstrip pr.2)
        else (pyStrip pr.1 :: (segmentLoop fuel (lstrip pr.2)).1,
              (segmentLoop fuel (lstrip pr.2)).2) := by
  cases hm : regexFirstMatch rem with
  | none => simp [segmentLoop, hm]
  | some pr =>
    obtain ⟨p, r⟩ := pr
    simp [segmentLoop, hm]

theorem segmentLoop_succ {fuel : ℕ} : ∀ {rem : Str}, rem.length ≤ fuel →
    segmentLoop (fuel + 1) rem = segmentLoop fuel rem := by
  induction fuel with
  | zero =>
    intro rem h
    have h0 : rem = [] := List.length_eq_zero.mp (Nat.le_zero.mp h)
    subst h0
    rfl
  | succ fuel ih =>
    intro rem h
    rw [segmentLoop_step (fuel + 1) rem, segmentLoop_step fuel rem]
    cases hm : regexFirstMatch rem with
    | none => simp only [hm]
    | some pr =>
      obtain ⟨pre, rest0⟩ := pr
      obtain ⟨heq, hne, -, -⟩ := regexFirstMatch_some hm
      have hlen : (lstrip rest0).length ≤ fuel := by
        have h1 : (lstrip rest0).length ≤ rest0.length := length_lstrip_le _
        have h2 : rem.length = pre.length + rest0.length := by
          rw [heq]
          simp
        have h3 : 1 ≤ pre.length := List.length_pos.mpr hne
        omega
      simp only [hm]
      by_cases hab : endsWithAbbrev (pyStrip pre)
      · simp only [if_pos hab]
        exact ih hlen
      · simp only [if_neg hab, ih hlen]

theorem segmentLoop_add {k fuel : ℕ} {rem : Str} (h : rem.length ≤ fuel) :
    segmentLoop (fuel + k) rem = segmentLoop fuel rem := by
  induction k with
  | zero => rfl
  | succ k ih =>
    rw [show fuel + (k + 1) = (fuel + k) + 1 by omega,
      segmentLoop_succ (le_trans h (Nat.le_add_right _ _)), ih]

theorem segmentLoop_of_le {fuel : ℕ} {rem : Str} (h : rem.length ≤ fuel) :
    segmentLoop fuel rem = segmentRun rem := by
  have h2 := @segmentLoop_add (fuel - rem.length) rem.length rem le_rfl
  rw [show rem.length + (fuel - rem.length) = fuel by omega] at h2
  exact h2

theorem segment_eq_run (text : Str) :
    segment_text_by_regex text = segmentRun (pyStrip text) :=
  segmentLoop_of_le (length_pyStrip_le text)

/-! ## Run lemmas for the splitter -/

theorem lstrip_nil : lstrip [] = [] := rfl

theorem rstrip_nil : rstrip [] = [] := rfl

theorem segmentRun_nil : segmentRun [] = ([], []) := rfl

theorem segmentRun_no_match {rem : Str} (hm : regexFirstMatch rem = none) :
    segmentRun rem = ([], rem) := by
  cases rem with
  | nil => rfl
  | cons c cs =>
    rw [segmentRun, List.length_cons, segmentLoop_step, hm]

theorem segmentRun_step {rem pre rest0 : Str} (hm : regexFirstMatch rem = some (pre, rest0)) :
    segmentRun rem =
      if endsWithAbbrev (pyStrip pre) then segmentRun (lstrip rest0)
      else (pyStrip pre :: (segmentRun (lstrip rest0)).1, (segmentRun (lstrip rest0)).2) := by
  obtain ⟨heq, hne, -, -⟩ := regexFirstMatch_some hm
  cases rem with
  | nil => simp [regexFirstMatch] at hm
  | cons c cs =>
    have hlen : (lstrip rest0).length ≤ cs.length := by
      have h1 : (lstrip rest0).length ≤ rest0.length := length_lstrip_le _
      have h2 : (c :: cs : Str).length = pre.length + rest0.length := by
        rw [heq]
        simp
      have h3 : 1 ≤ pre.length := List.length_pos.mpr hne
      simp only [List.length_cons] at h2
      omega
    rw [segmentRun, List.length_cons, segmentLoop_step]
    simp only [hm]
    rw [segmentLoop_of_le hlen]

theorem end_not_space {c : Char} (h : isEndPunctChar c = true) : pyIsSpace c = false := by
  have h2 : c ∈ (['.', '|', '!', '?', '。', '！', '？'] : List Char) := by
    have h3 : decide (c ∈ (['.', '|', '!', '?', '。', '！', '？'] : List Char)) = true := h
    exact of_decide_eq_true h3
  fin_cases h2 <;> decide

theorem lstrip_eq_self_head {c : Char} {t : Str} (hc : pyIsSpace c = false) :
    lstrip (c :: t) = c :: t := by
  simp [lstrip, List.dropWhile_cons, hc]

/-- In the splitter loop the remaining text always has no leading whitespace;
under that invariant the candidate `remaining_text[:end_pos].strip()` is just
`remaining_text[:end_pos]`. -/
theorem cand_eq_pre {rem pre rest0 : Str} (hl : lstrip rem = rem)
    (hm : regexFirstMatch rem = some (pre, rest0)) : pyStrip pre = pre := by
  obtain ⟨heq, hne, hself, e, hlast, hend⟩ := regexFirstMatch_some hm
  have hrstrip : rstrip pre = pre :=
    rstrip_eq_self_of_getLast? hlast (end_not_space hend)
  cases pre with
  | nil => exact absurd rfl hne
  | cons ch t =>
    have h2 : rem = ch :: (t ++ rest0) := by
      rw [heq]
      rfl
    have hhead : pyIsSpace ch = false := by
      apply @head_not_space_of_lstrip ch (t ++ rest0)
      rw [← h2]
      exact hl
    show pyStrip (ch :: t) = ch :: t
    unfold pyStrip
    rw [hrstrip, lstrip_eq_self_head hhead]

theorem getLast?_append_of_ne {a b : Str} (hb : b ≠ []) :
    (a ++ b).getLast? = b.getLast? := by
  rw [List.getLast?_append]
  cases hx : b.getLast? with
  | none => exact absurd (List.getLast?_eq_none_iff.mp hx) hb
  | some e => rfl

/-- Facts about `lstrip rest0`, the remaining text entering the next loop
iteration: it is left- and right-stripped and strictly shorter than `rem`. -/
theorem rest_facts {rem pre rest0 : Str} (hr : rstrip rem = rem)
    (hm : regexFirstMatch rem = some (pre, rest0)) :
    lstrip (lstrip rest0) = lstrip rest0 ∧ rstrip (lstrip rest0) = lstrip rest0 ∧
      (lstrip rest0).length + 1 ≤ rem.length ∧ (rest0 ≠ [] → lstrip rest0 ≠ []) := by
  obtain ⟨heq, hne, -, -⟩ := regexFirstMatch_some hm
  have hlen : (lstrip rest0).length + 1 ≤ rem.length := by
    have h1 : (lstrip rest0).length ≤ rest0.length := length_lstrip_le _
    have h2 : rem.length = pre.length + rest0.length := by
      rw [heq]
      simp
    have h3 : 1 ≤ pre.length := List.length_pos.mpr hne
    omega
  by_cases h0 : rest0 = []
  · subst h0
    exact ⟨rfl, rfl, hlen, fun hcon => absurd rfl hcon⟩
  · have hrem_ne : rem ≠ [] := by
      rw [heq]
      simp [h0]
    have hrn : rstrip rem ≠ [] := by
      rw [hr]
      exact hrem_ne
    obtain ⟨e, he1, he2⟩ := rstrip_last_not hrn
    rw [hr] at he1
    have hrest_last : rest0.getLast? = some e := by
      rw [heq] at he1
      rw [← @getLast?_append_of_ne pre rest0 h0]
      exact he1
    have hls_ne : lstrip rest0 ≠ [] := by
      intro hcon
      have hall : ∀ x ∈ rest0, pyIsSpace x = true := List.dropWhile_eq_nil_iff.mp hcon
      have hmem : e ∈ rest0 := by
        have h4 := List.getLast?_eq_getLast rest0 h0
        rw [h4] at hrest_last
        have h5 : rest0.getLast h0 = e := Option.some.inj hrest_last
        rw [← h5]
        exact List.getLast_mem h0
      rw [hall e hmem] at he2
      exact absurd he2 (by simp)
    have hls_last : (lstrip rest0).getLast? = some e := by
      rw [getLast?_lstrip hls_ne]
      exact hrest_last
    exact ⟨lstrip_idem _, rstrip_eq_self_of_getLast? hls_last he2, hlen,
      fun _ => hls_ne⟩

/-- Every sentence the splitter loop emits is nonempty, fully stripped, ends
with (its unique) end-punctuation character, and does not end with one of the
abbreviations. -/
theorem mem_segmentLoop_shape : ∀ (fuel : ℕ) {rem s : Str}, lstrip rem = rem →
    s ∈ (segmentLoop fuel rem).1 →
    regexFirstMatch s = some (s, []) ∧ lstrip s = s ∧ rstrip s = s ∧
      endsWithAbbrev s = false ∧ s ≠ [] := by
  intro fuel
  induction fuel with
  | zero =>
    intro rem s _ hs
    simp [segmentLoop] at hs
  | succ fuel ih =>
    intro rem s hrem hs
    rw [segmentLoop_step] at hs
    cases hm : regexFirstMatch rem with
    | none =>
      rw [hm] at hs
      simp at hs
    | some pr =>
      obtain ⟨pre, rest0⟩ := pr
      simp only [hm] at hs
      obtain ⟨heq, hne, hself, e, hlast, hend⟩ := regexFirstMatch_some hm
      have hcand : pyStrip pre = pre := cand_eq_pre hrem hm
      by_cases hab : endsWithAbbrev (pyStrip pre)
      · rw [if_pos hab] at hs
        exact ih (lstrip_idem _) hs
      · rw [if_neg hab] at hs
        rcases List.mem_cons.mp hs with h1 | h1
        · subst h1
          rw [hcand] at hab ⊢
          refine ⟨hself, ?_, ?_, Bool.of_not_eq_true hab, hne⟩
          · have h2 := cand_eq_pre hrem hm
            unfold pyStrip at h2
            calc lstrip pre = lstrip (lstrip (rstrip pre)) := by rw [h2]
              _ = lstrip (rstrip pre) := lstrip_idem _
              _ = pre := h2
          · exact rstrip_eq_self_of_getLast? hlast (end_not_space hend)
        · exact ih (lstrip_idem _) h1

theorem mem_segment_shape {t s : Str} (hs : s ∈ (segment_text_by_regex t).1) :
    regexFirstMatch s = some (s, []) ∧ lstrip s = s ∧ rstrip s = s ∧
      endsWithAbbrev s = false ∧ s ≠ [] :=
  mem_segmentLoop_shape _ (lstrip_pyStrip t) hs

/-! ## Remainder shape and concatenation decomposition -/

theorem segmentLoop_remainder : ∀ (fuel : ℕ) {rem : Str}, rem.length ≤ fuel →
    lstrip rem = rem → rstrip rem = rem →
    lstrip (segmentLoop fuel rem).2 = (segmentLoop fuel rem).2 ∧
      rstrip (segmentLoop fuel rem).2 = (segmentLoop fuel rem).2 ∧
      regexFirstMatch (segmentLoop fuel rem).2 = none := by
  intro fuel
  induction fuel with
  | zero =>
    intro rem h hl hr
    have h0 : rem = [] := List.length_eq_zero.mp (Nat.le_zero.mp h)
    subst h0
    exact ⟨rfl, rfl, rfl⟩
  | succ fuel ih =>
    intro rem h hl hr
    cases hm : regexFirstMatch rem with
    | none =>
      rw [segmentLoop_step]
      simp only [hm]
      exact ⟨hl, hr, trivial⟩
    | some pr =>
      obtain ⟨pre, rest0⟩ := pr
      rw [segmentLoop_step]
      simp only [hm]
      obtain ⟨hf1, hf2, hf3, -⟩ := rest_facts hr hm
      have hlen : (lstrip rest0).length ≤ fuel := by omega
      by_cases hab : endsWithAbbrev (pyStrip pre)
      · rw [if_pos hab]
        exact ih hlen hf1 hf2
      · rw [if_neg hab]
        exact ih hlen hf1 hf2

theorem segmentRun_remainder {rem : Str} (hl : lstrip rem = rem) (hr : rstrip rem = rem) :
    lstrip (segmentRun rem).2 = (segmentRun rem).2 ∧
      rstrip (segmentRun rem).2 = (segmentRun rem).2 ∧
      regexFirstMatch (segmentRun rem).2 = none :=
  segmentLoop_remainder _ le_rfl hl hr

theorem segment_remainder (t : Str) :
    lstrip (segment_text_by_regex t).2 = (segment_text_by_regex t).2 ∧
      rstrip (segment_text_by_regex t).2 = (segment_text_by_regex t).2 ∧
      regexFirstMatch (segment_text_by_regex t).2 = none := by
  rw [segment_eq_run]
  exact segmentRun_remainder (lstrip_pyStrip t) (rstrip_pyStrip t)

theorem segmentRun_append_split (c : Str) : ∀ (n : ℕ) {rem : Str}, rem.length ≤ n →
    rem ≠ [] → lstrip rem = rem → rstrip rem = rem →
    segmentRun (rem ++ c) =
      ((segmentRun rem).1 ++ (segmentRun (lstrip ((segmentRun rem).2 ++ c))).1,
       (segmentRun (lstrip ((segmentRun rem).2 ++ c))).2) := by
  intro n
  induction n with
  | zero =>
    intro rem h hne _ _
    exact absurd (List.length_eq_zero.mp (Nat.le_zero.mp h)) hne
  | succ n ih =>
    intro rem hlen hne hl hr
    cases hm : regexFirstMatch rem with
    | none =>
      rw [segmentRun_no_match hm]
      have h2 : lstrip (rem ++ c) = rem ++ c := lstrip_append_self c hl hne
      show segmentRun (rem ++ c) =
        ([] ++ (segmentRun (lstrip (rem ++ c))).1, (segmentRun (lstrip (rem ++ c))).2)
      rw [h2]
      simp
    | some pr =>
      obtain ⟨pre, rest0⟩ := pr
      obtain ⟨hf1, hf2, hf3, hf4⟩ := rest_facts hr hm
      have hmc : regexFirstMatch (rem ++ c) = some (pre, rest0 ++ c) :=
        regexFirstMatch_append_some hm
      have hstep := segmentRun_step hm
      have hstepc := segmentRun_step hmc
      by_cases h0 : rest0 = []
      · subst h0
        rw [hstepc, hstep]
        simp only [List.nil_append, lstrip_nil, segmentRun_nil]
        by_cases hab : endsWithAbbrev (pyStrip pre)
        · rw [if_pos hab, if_pos hab]
          simp
        · rw [if_neg hab, if_neg hab]
          simp
      · have hne0 : lstrip rest0 ≠ [] := hf4 h0
        have hlen2 : (lstrip rest0).length ≤ n := by omega
        have IH := ih hlen2 hne0 hf1 hf2
        have hsplit : lstrip (rest0 ++ c) = lstrip rest0 ++ c := lstrip_append_of_ne c hne0
        rw [hstepc, hstep, hsplit]
        by_cases hab : endsWithAbbrev (pyStrip pre)
        · rw [if_pos hab, if_pos hab]
          exact IH
        · rw [if_neg hab, if_neg hab]
          rw [IH]
          simp

/-- Splitting `a ++ b` is splitting `a`, then splitting `a`'s remainder
prepended to `b` — provided `a` carries no trailing whitespace (a trailing
whitespace run of `a` would be eaten by the initial `strip()` of the
concatenated text). -/
theorem segment_append_split {a : Str} (b : Str) (hra : rstrip a = a) :
    segment_text_by_regex (a ++ b) =
      ((segment_text_by_regex a).1 ++
        (segment_text_by_regex ((segment_text_by_regex a).2 ++ b)).1,
       (segment_text_by_regex ((segment_text_by_regex a).2 ++ b)).2) := by
  by_cases ha : a = []
  · subst ha
    have h0 : segment_text_by_regex ([] : Str) = ([], []) := rfl
    simp [h0]
  · have h2 : rstrip a ≠ [] := by
      rw [hra]
      exact ha
    obtain ⟨e, he1, he2⟩ := rstrip_last_not h2
    rw [hra] at he1
    have hlstrip_ne : lstrip a ≠ [] := by
      intro hcon
      have hall := List.dropWhile_eq_nil_iff.mp hcon
      have hmem : e ∈ a := by
        have h4 := List.getLast?_eq_getLast a ha
        rw [h4] at he1
        rw [← Option.some.inj he1]
        exact List.getLast_mem ha
      rw [hall e hmem] at he2
      exact absurd he2 (by simp)
    have hL_l : lstrip (lstrip a) = lstrip a := lstrip_idem a
    have hL_r : rstrip (lstrip a) = lstrip a :=
      rstrip_eq_self_of_getLast? ((getLast?_lstrip hlstrip_ne).trans he1) he2
    have hpy : pyStrip a = lstrip a := by
      unfold pyStrip
      rw [hra]
    have hps : pyStrip (a ++ b) = lstrip a ++ rstrip b := by
      unfold pyStrip
      rw [rstrip_append_left hra b, lstrip_append_of_ne _ hlstrip_ne]
    have hLD := segmentRun_append_split (rstrip b) (lstrip a).length le_rfl hlstrip_ne hL_l hL_r
    obtain ⟨-, hr1r, -⟩ := segmentRun_remainder hL_l hL_r
    have hinner : pyStrip ((segmentRun (lstrip a)).2 ++ b) =
        lstrip ((segmentRun (lstrip a)).2 ++ rstrip b) := by
      unfold pyStrip
      rw [rstrip_append_left hr1r b]
    rw [segment_eq_run (a ++ b), hps, hLD, segment_eq_run a, hpy,
      segment_eq_run ((segmentRun (lstrip a)).2 ++ b), hinner]

/-! ## Streaming lemmas for the responder -/

theorem responderTokenLoop_pure_step (t : Str) (rest : List (Bool × Bool × Str)) (buf : Str) :
    responderTokenLoop ((false, false, t) :: rest) buf =
      (((segment_text_by_regex (buf ++ t)).1.filter (fun s => s ≠ [])) ++
        (responderTokenLoop rest (segment_text_by_regex (buf ++ t)).2).1,
       (responderTokenLoop rest (segment_text_by_regex (buf ++ t)).2).2.1,
       (responderTokenLoop rest (segment_text_by_regex (buf ++ t)).2).2.2) := rfl

theorem segment_sentences_ne_nil (t : Str) :
    (segment_text_by_regex t).1.filter (fun s => s ≠ []) = (segment_text_by_regex t).1 := by
  apply List.filter_eq_self.mpr
  intro s hs
  have h := (mem_segment_shape hs).2.2.2.2
  simp [h]

/-- An uninterrupted token loop is fragment-boundary invariant provided no
fragment carries trailing whitespace: it computes exactly the batch split of
the concatenation appended to the starting buffer. -/
theorem responderTokenLoop_pure (frags : List Str) :
    ∀ buf : Str, lstrip buf = buf → rstrip buf = buf → regexFirstMatch buf = none →
    (∀ f ∈ frags, rstrip f = f) →
    responderTokenLoop (pureEvents frags) buf =
      ((segment_text_by_regex (buf ++ frags.flatten)).1,
       (segment_text_by_regex (buf ++ frags.flatten)).2, StreamEnd.natural) := by
  induction frags with
  | nil =>
    intro buf hl hr hm _
    simp only [pureEvents, List.map_nil, List.flatten_nil, List.append_nil]
    rw [responderTokenLoop, segment_eq_run]
    have hpy : pyStrip buf = buf := by
      unfold pyStrip
      rw [hr, hl]
    rw [hpy, segmentRun_no_match hm]
  | cons t rest ih =>
    intro buf hl hr hm hfr
    simp only [pureEvents, List.map_cons]
    rw [responderTokenLoop_pure_step]
    have hbuf_t_r : rstrip (buf ++ t) = buf ++ t := by
      rw [rstrip_append_left hr t, hfr t (by simp)]
    have hDEC := @segment_append_split (buf ++ t) rest.flatten hbuf_t_r
    obtain ⟨hb1l, hb1r, hb1m⟩ := segment_remainder (buf ++ t)
    have hIH := ih (segment_text_by_regex (buf ++ t)).2 hb1l hb1r hb1m
      (fun f hf => hfr f (by simp [hf]))
    have hpe : rest.map (fun t => ((false : Bool), (false : Bool), t)) = pureEvents rest := rfl
    rw [hpe, hIH]
    have hassoc : buf ++ (t :: rest).flatten = (buf ++ t) ++ rest.flatten := by
      simp [List.flatten_cons]
    rw [hassoc, hDEC, segment_sentences_ne_nil]

/-- Splitting an emitted sentence concatenated with arbitrary text yields
that sentence followed by the split of the text. -/
theorem segment_append_of_emitted {s : Str} (r : Str) (hm : regexFirstMatch s = some (s, []))
    (hl : lstrip s = s) (hr : rstrip s = s) (hab : endsWithAbbrev s = false) (hne : s ≠ []) :
    segment_text_by_regex (s ++ r) =
      (s :: (segment_text_by_regex r).1, (segment_text_by_regex r).2) := by
  have hps : pyStrip (s ++ r) = s ++ rstrip r := by
    unfold pyStrip
    rw [rstrip_append_left hr r, lstrip_append_self _ hl hne]
  have hmc : regexFirstMatch (s ++ rstrip r) = some (s, [] ++ rstrip r) :=
    regexFirstMatch_append_some hm
  rw [List.nil_append] at hmc
  rw [segment_eq_run (s ++ r), hps, segmentRun_step hmc]
  have hcand : pyStrip s = s := by
    unfold pyStrip
    rw [hr, hl]
  rw [hcand, if_neg (show ¬endsWithAbbrev s = true by simp [hab])]
  rw [segment_eq_run r]
  rfl

/-! ## Claim theorems -/

/-- C1 (code bug, evaluation): the pattern built by `segment_text_by_regex`
joins the escaped `END_PUNCTUATIONS` with `"|"` inside one character class,
so the literal `|` acts as terminal punctuation: on input `"a| b."` the
splitter emits the complete sentence `"a|"`, which ends in `'|'` — a
character that is not the final character of any declared `END_PUNCTUATIONS`
token, contradicting the claimed terminal-punctuation invariant. -/
theorem c1_pipe_terminator_eval :
    segment_text_by_regex "a| b.".toList = (["a|".toList, "b.".toList], []) ∧
      ("a|".toList).getLast? = some '|' ∧
      END_PUNCTUATIONS.filter (fun p => p.getLast? = some '|') = [] := by decide

/-- C2 (code bug, evaluation): on `"Mr. Smith went home."` the abbreviation
branch of `segment_text_by_regex` discards the candidate `"Mr."` from
`remaining_text` instead of keeping it in the running candidate, so the
splitter returns `(["Smith went home."], "")` — not the claimed single
sentence `"Mr. Smith went home."`. -/
theorem c2_abbreviation_dropped_eval :
    segment_text_by_regex "Mr. Smith went home.".toList =
      (["Smith went home.".toList], []) ∧
      (["Smith went home.".toList], ([] : Str)) ≠
        (["Mr. Smith went home.".toList], ([] : Str)) := by decide

/-- C7 (code bug, evaluation): `Speaker.loop` computes
`word_duration = audio_duration / len(words)` — without the `max(…, 1)`
guard the spec prescribes — so a clip whose text splits into zero words
raises `ZeroDivisionError` (modelled as `none`), while the spec formula
`duration / max(word_count, 1)` is defined there. -/
theorem c7_zero_words_division_eval :
    speakerWordDuration "".toList 8000 8000 = none ∧
      specWordDuration "".toList 8000 8000 = 1 := by
  constructor
  · rfl
  · norm_num [specWordDuration, pySplit, pySplitAux]

/-- C10: when the token loop of `Responder.loop` is abandoned by `break` on
the `speaking` flag (barge-in), the trailing-fragment flush still runs —
any non-whitespace buffer text is pushed as a final sentence exactly as
after a natural end of stream. -/
theorem c10_barge_in_flush (events : List (Bool × Bool × Str))
    (hend : (responderTokenLoop events []).2.2 = StreamEnd.bargeIn)
    (hne : pyStrip (responderTokenLoop events []).2.1 ≠ []) :
    responderEmits events =
      (responderTokenLoop events []).1 ++ [pyStrip (responderTokenLoop events []).2.1] := by
  simp only [responderEmits, hend]
  rw [if_pos hne]

/-- Witness for C10 at a concrete barge-in run: the stream yields
`"Hello wor"`, then barge-in is observed with `"ld."` pending; the buffered
fragment `"Hello wor"` is flushed. -/
theorem c10_barge_in_flush_witness :
    responderEmits
        [((false : Bool), (false : Bool), "Hello wor".toList),
         ((true : Bool), (false : Bool), "ld.".toList)] =
      (responderTokenLoop
        [((false : Bool), (false : Bool), "Hello wor".toList),
         ((true : Bool), (false : Bool), "ld.".toList)] []).1 ++
      [pyStrip (responderTokenLoop
        [((false : Bool), (false : Bool), "Hello wor".toList),
         ((true : Bool), (false : Bool), "ld.".toList)] []).2.1] :=
  c10_barge_in_flush _ (by decide) (by decide)

/-- C4: the segmenter state machine, per window.  Not recording: a speech
window increments the consecutive-speech count and a non-speech window resets
it to 0; when the count reaches `MIN_SPEECH_CHUNKS = 3`, recording starts,
the utterance buffer is seeded with the entire current pre-buffer (which
already contains this window) and the `speaking` flag is set.  Recording:
every window is appended to the utterance buffer; a speech window resets the
consecutive-silence count; when `SILENCE_LIMIT = 24` consecutive non-speech
windows accumulate, the concatenated utterance is emitted, the buffer is
cleared, recording stops and the `speaking` flag is cleared. -/
theorem c4_segmenter_state_machine {α : Type} (s : SegState α) (w : List α) (isSpeech : Bool) :
    (s.recording = false → isSpeech = true → MIN_SPEECH_CHUNKS ≤ s.speechSamples + 1 →
      processWindow s w isSpeech =
        ({ s with
            preBuffer := pushPre s.preBuffer w
            speechSamples := s.speechSamples + 1
            currentSpeech := pushPre s.preBuffer w
            recording := true
            silenceSamples := 0
            speaking := true }, none)) ∧
    (s.recording = false → isSpeech = true → s.speechSamples + 1 < MIN_SPEECH_CHUNKS →
      processWindow s w isSpeech =
        ({ s with
            preBuffer := pushPre s.preBuffer w
            speechSamples := s.speechSamples + 1 }, none)) ∧
    (s.recording = false → isSpeech = false →
      processWindow s w isSpeech =
        ({ s with
            preBuffer := pushPre s.preBuffer w
            speechSamples := 0 }, none)) ∧
    (s.recording = true → isSpeech = true →
      processWindow s w isSpeech =
        ({ s with
            preBuffer := pushPre s.preBuffer w
            currentSpeech := s.currentSpeech ++ [w]
            silenceSamples := 0 }, none)) ∧
    (s.recording = true → isSpeech = false → s.silenceSamples + 1 < SILENCE_LIMIT →
      processWindow s w isSpeech =
        ({ s with
            preBuffer := pushPre s.preBuffer w
            currentSpeech := s.currentSpeech ++ [w]
            silenceSamples := s.silenceSamples + 1 }, none)) ∧
    (s.recording = true → isSpeech = false → SILENCE_LIMIT ≤ s.silenceSamples + 1 →
      processWindow s w isSpeech =
        ({ s with
            preBuffer := pushPre s.preBuffer w
            currentSpeech := []
            silenceSamples := s.silenceSamples + 1
            recording := false
            speechSamples := 0
            count := s.count + 1
            speaking := false }, some (s.currentSpeech ++ [w]).flatten)) := by
  refine ⟨?_, ?_, ?_, ?_, ?_, ?_⟩
  · intro h1 h2 h3
    simp [processWindow, h1, h2, h3]
  · intro h1 h2 h3
    simp [processWindow, h1, h2, Nat.not_le.mpr h3]
  · intro h1 h2
    simp [processWindow, h1, h2, MIN_SPEECH_CHUNKS]
  · intro h1 h2
    have hne : (s.currentSpeech ++ [w]).isEmpty = false := by
      simp [List.isEmpty_iff]
    simp [processWindow, h1, h2, hne, SILENCE_LIMIT]
  · intro h1 h2 h3
    simp [processWindow, h1, h2, Nat.not_le.mpr h3]
  · intro h1 h2 h3
    have hne : (s.currentSpeech ++ [w]).isEmpty = false := by
      simp [List.isEmpty_iff]
    simp [processWindow, h1, h2, h3, hne]

/-- Witness for C4: a concrete non-recording state with two prior speech
windows receives a third speech window, which starts recording, seeds the
utterance buffer with the pre-buffer and sets the `speaking` flag. -/
theorem c4_segmenter_state_machine_witness :
    processWindow (⟨[], [[1], [2]], 2, 0, false, false, 0, []⟩ : SegState Int) [3] true =
      (⟨[[1], [2], [3]], [[1], [2], [3]], 3, 0, true, true, 0, []⟩, none) := by
  have h := (c4_segmenter_state_machine
    (⟨[], [[1], [2]], 2, 0, false, false, 0, []⟩ : SegState Int) [3] true).1 rfl rfl (by decide)
  rw [h]
  decide

/-- Auxiliary invariant for C5, generalized over the carry-over buffer:
the windows handed to the VAD followed by the final carry-over recombine to
the carry-over plus all consumed input; at most one window is emitted per
frame; every window has exactly `windowSize` samples. -/
theorem alignRun_invariant {α : Type} (windowSize : ℕ) :
    ∀ (frames : List (List α)) (buffer : List α),
    (alignRun windowSize buffer frames).1.flatten ++ (alignRun windowSize buffer frames).2 =
      buffer ++ frames.flatten ∧
    (alignRun windowSize buffer frames).1.length ≤ frames.length ∧
    (∀ w ∈ (alignRun windowSize buffer frames).1, w.length = windowSize) := by
  intro frames
  induction frames with
  | nil =>
    intro buffer
    simp [alignRun]
  | cons f fs ih =>
    intro buffer
    by_cases hlt : (buffer ++ f).length < windowSize
    · have ha : alignFrame windowSize buffer f = (none, buffer ++ f) := by
        simp only [alignFrame]
        rw [if_pos hlt]
      simp only [alignRun, ha]
      obtain ⟨i1, i2, i3⟩ := ih (buffer ++ f)
      refine ⟨?_, le_trans i2 (Nat.le_succ _), i3⟩
      rw [i1]
      simp
    · have ha : alignFrame windowSize buffer f =
          (some ((buffer ++ f).take windowSize), (buffer ++ f).drop windowSize) := by
        simp only [alignFrame]
        rw [if_neg hlt]
      simp only [alignRun, ha]
      obtain ⟨i1, i2, i3⟩ := ih ((buffer ++ f).drop windowSize)
      refine ⟨?_, ?_, ?_⟩
      · simp only [List.flatten_cons]
        rw [List.append_assoc, i1, ← List.append_assoc, List.take_append_drop]
        simp
      · simpa using Nat.succ_le_succ i2
      · intro w hw
        rcases List.mem_cons.mp hw with h1 | h1
        · subst h1
          rw [List.length_take]
          omega
        · exact i3 w h1

/-- C5: the window-alignment protocol drops no sample and processes none
twice — after any sequence of input frames, the windows handed to the VAD
followed by the current carry-over recombine exactly to the input consumed so
far — and at most one window, of exactly `window_size` samples, is processed
per input frame. -/
theorem c5_window_alignment {α : Type} (windowSize : ℕ) (frames : List (List α)) :
    (alignRun windowSize [] frames).1.flatten ++ (alignRun windowSize [] frames).2 =
      frames.flatten ∧
    (alignRun windowSize [] frames).1.length ≤ frames.length ∧
    (∀ w ∈ (alignRun windowSize [] frames).1, w.length = windowSize) := by
  have h := alignRun_invariant windowSize frames []
  simpa using h

/-- `convAppend` preserves the no-adjacent-same-role invariant: the same-role
branch only rewrites the last entry's text, the different-role branch appends
an entry whose role differs from the last. -/
theorem convAppend_chain {msgs : List (Role × Str)}
    (h : List.Chain' (fun a b : Role × Str => a.1 ≠ b.1) msgs)
    (role : Role) (content : Str) :
    List.Chain' (fun a b : Role × Str => a.1 ≠ b.1) (convAppend msgs role content) := by
  cases hL : msgs.getLast? with
  | none =>
    have h0 : msgs = [] := List.getLast?_eq_none_iff.mp hL
    subst h0
    simp [convAppend]
  | some last =>
    have hne : msgs ≠ [] := by
      intro h0
      subst h0
      simp at hL
    have hlast : msgs.getLast hne = last := by
      have h3 := List.getLast?_eq_getLast msgs hne
      rw [h3] at hL
      exact Option.some.inj hL
    have hsplit : msgs.dropLast ++ [last] = msgs := by
      rw [← hlast]
      exact List.dropLast_append_getLast hne
    have hmsgs := h
    rw [← hsplit] at h
    rw [List.chain'_append] at h
    obtain ⟨hD, -, hrel⟩ := h
    by_cases hrole : last.1 = role
    · rw [convAppend]
      simp only [hL]
      rw [if_pos hrole]
      rw [List.chain'_append]
      refine ⟨hD, List.chain'_singleton _, ?_⟩
      intro x hx y hy
      simp only [List.head?_cons, Option.mem_def, Option.some.injEq] at hy
      subst hy
      have h5 := hrel x hx last (by simp)
      simpa [← hrole] using h5
    · rw [convAppend]
      simp only [hL]
      rw [if_neg hrole]
      rw [List.chain'_append]
      refine ⟨hmsgs, List.chain'_singleton _, ?_⟩
      intro x hx y hy
      rw [hL] at hx
      simp only [Option.mem_def, Option.some.injEq] at hx
      simp only [List.head?_cons, Option.mem_def, Option.some.injEq] at hy
      subst hx
      subst hy
      exact hrole

/-- C3 (counterexample): appending `""` then `"x"` under the same role gives
the entry text `"x"` — no space is inserted although `"x"` does not begin
with `.`, `!`, `?` or `,` — because the last entry's text is empty, a case
the claim omits. -/
theorem c3_empty_content_counterexample :
    convRun [(Role.user, []), (Role.user, "x".toList)] = [(Role.user, "x".toList)] ∧
      "x".toList ≠ ' ' :: "x".toList := by decide

/-- C3 (amended): the conversation never holds two adjacent entries of the
same role; an append whose role equals the last entry's role rewrites only
that entry, concatenating the new text with exactly one inserted space unless
the new text begins with `.`, `!`, `?` or `,` — or the last entry's text is
empty; and the two collapse-spacing examples hold. -/
theorem c3_conversation_collapse :
    (∀ appends : List (Role × Str),
      List.Chain' (fun a b : Role × Str => a.1 ≠ b.1) (convRun appends)) ∧
    (∀ (msgs : List (Role × Str)) (role : Role) (content : Str) (last : Role × Str),
      msgs.getLast? = some last → last.1 = role →
      convAppend msgs role content =
        msgs.dropLast ++ [(role, last.2 ++
          (if last.2 ≠ [] ∧ startsWithPunct content = false then [' '] else []) ++ content)]) ∧
    convRun [(Role.user, "hello".toList), (Role.user, ", world".toList)] =
      [(Role.user, "hello, world".toList)] ∧
    convRun [(Role.user, "hello".toList), (Role.user, "world".toList)] =
      [(Role.user, "hello world".toList)] := by
  refine ⟨?_, ?_, by decide, by decide⟩
  · intro appends
    suffices h : ∀ (l : List (Role × Str)) (msgs : List (Role × Str)),
        List.Chain' (fun a b : Role × Str => a.1 ≠ b.1) msgs →
        List.Chain' (fun a b : Role × Str => a.1 ≠ b.1)
          (l.foldl (fun m rc => convAppend m rc.1 rc.2) msgs) by
      exact h appends [] (by simp)
    intro l
    induction l with
    | nil =>
      intro msgs h
      simpa using h
    | cons a as ih =>
      intro msgs h
      simp only [List.foldl_cons]
      exact ih _ (convAppend_chain h _ _)
  · intro msgs role content last hL hrole
    rw [convAppend]
    simp only [hL]
    rw [if_pos hrole]

/-- Witness for C3 at concrete inputs: a same-role append onto
`[(user, "a")]` rewrites the single entry with one inserted space. -/
theorem c3_conversation_collapse_witness :
    convAppend [(Role.user, "a".toList)] Role.user "b".toList =
      [(Role.user, "a".toList)].dropLast ++ [(Role.user, "a".toList ++
        (if "a".toList ≠ [] ∧ startsWithPunct "b".toList = false then [' '] else []) ++
        "b".toList)] :=
  c3_conversation_collapse.2.1 [(Role.user, "a".toList)] Role.user "b".toList
    (Role.user, "a".toList) (by decide) (by decide)

/-- Words produced by `pySplit` are never empty. -/
theorem pySplitAux_mem_ne_nil : ∀ (s acc : Str), ∀ w ∈ pySplitAux s acc, w ≠ [] := by
  intro s
  induction s with
  | nil =>
    intro acc w hw
    by_cases h : acc = []
    · simp [pySplitAux, h] at hw
    · simp only [pySplitAux, if_neg h, List.mem_singleton] at hw
      subst hw
      simp [h]
  | cons c cs ih =>
    intro acc w hw
    rw [pySplitAux] at hw
    by_cases hc : pyIsSpace c
    · rw [if_pos hc] at hw
      by_cases h : acc = []
      · rw [if_pos h] at hw
        exact ih [] w hw
      · rw [if_neg h] at hw
        rcases List.mem_cons.mp hw with h1 | h1
        · subst h1
          simp [h]
        · exact ih [] w h1
    · rw [if_neg hc] at hw
      exact ih (c :: acc) w hw

theorem pySplit_mem_ne_nil (s : Str) : ∀ w ∈ pySplit s, w ≠ [] :=
  pySplitAux_mem_ne_nil s []

theorem intercalate_space_eq : ∀ (ws : List Str) (w : Str),
    List.intercalate [' '] (w :: ws) = w ++ (ws.map (fun v => ' ' :: v)).flatten := by
  intro ws
  induction ws with
  | nil =>
    intro w
    simp [List.intercalate, List.intersperse]
  | cons v vs ih =>
    intro w
    have h2 : List.intersperse [' '] (w :: v :: vs) =
        w :: [' '] :: List.intersperse [' '] (v :: vs) := rfl
    unfold List.intercalate at ih ⊢
    rw [h2]
    simp only [List.flatten_cons]
    rw [ih v]
    simp

/-- The word loop of `Speaker.loop` with `speaking`/`exit` never set,
running over an existing trailing assistant entry: each word collapses into
that entry with a single space (its text being nonempty), provided no word
begins with `.`, `!`, `?` or `,`. -/
theorem speakerWordLoop_acc {speak exitF : ℕ → Bool}
    (hspeak : ∀ i, speak i = false) (hexit : ∀ i, exitF i = false)
    (D : List (Role × Str)) :
    ∀ (ws : List Str) (i : ℕ) (acc : Str), acc ≠ [] →
    (∀ w ∈ ws, startsWithPunct w = false) →
    speakerWordLoop speak exitF ws i (D ++ [(Role.assistant, acc)]) =
      D ++ [(Role.assistant, acc ++ (ws.map (fun v => ' ' :: v)).flatten)] := by
  intro ws
  induction ws with
  | nil =>
    intro i acc hacc _
    simp [speakerWordLoop]
  | cons w ws ih =>
    intro i acc hacc hp
    rw [speakerWordLoop]
    simp only [hspeak i, hexit i, Bool.false_eq_true, if_false]
    have hca : convAppend (D ++ [(Role.assistant, acc)]) Role.assistant w =
        D ++ [(Role.assistant, acc ++ [' '] ++ w)] := by
      rw [convAppend]
      simp only [List.getLast?_concat, if_true]
      rw [List.dropLast_concat, if_pos ⟨hacc, hp w (by simp)⟩]
    rw [hca, ih (i + 1) (acc ++ [' '] ++ w) (by simp) (fun v hv => hp v (by simp [hv]))]
    simp

/-- C6 (counterexample): a clip with text `"hello ,world"` played to
completion appends the two words `"hello"` and `",world"`, but the collapse
rule inserts no space before `",world"`, so the assistant entry reads
`"hello,world"` — not the words joined by single spaces. -/
theorem c6_punct_word_counterexample :
    speakerWordLoop (fun _ => false) (fun _ => false) (pySplit "hello ,world".toList) 0 [] =
      [(Role.assistant, "hello,world".toList)] ∧
      "hello,world".toList ≠ List.intercalate [' '] (pySplit "hello ,world".toList) := by
  decide

/-- C6 (amended): if the local sink's word loop runs with `speaking` never
set and `exit` never set, starting from a conversation whose last entry (if
any) is not an assistant entry, and the clip text has at least one word
(a zero-word clip never reaches the loop: computing `word_duration` raises,
see C7), then it appends exactly the whitespace-split words of the text, in
order, as one assistant entry totaling the words joined by single spaces —
provided no word after the first begins with `.`, `!`, `?` or `,` (such a
word is joined without the space, per the §3 collapse rule). -/
theorem c6_sink_word_accounting (text : Str) (speak exitF : ℕ → Bool)
    (c0 : List (Role × Str))
    (hspeak : ∀ i, speak i = false) (hexit : ∀ i, exitF i = false)
    (hlast : ∀ last ∈ c0.getLast?, last.1 ≠ Role.assistant)
    (hwords : pySplit text ≠ [])
    (hpunct : ∀ w ∈ (pySplit text).drop 1, startsWithPunct w = false) :
    speakerWordLoop speak exitF (pySplit text) 0 c0 =
      c0 ++ [(Role.assistant, List.intercalate [' '] (pySplit text))] := by
  cases hws : pySplit text with
  | nil => exact absurd hws hwords
  | cons w0 ws =>
    rw [hws] at hpunct
    rw [speakerWordLoop]
    simp only [hspeak 0, hexit 0, Bool.false_eq_true, if_false]
    have hca : convAppend c0 Role.assistant w0 = c0 ++ [(Role.assistant, w0)] := by
      rw [convAppend]
      cases hL : c0.getLast? with
      | none => simp only [hL]
      | some last =>
        have h5 := hlast last (by rw [hL]; rfl)
        simp only [hL]
        rw [if_neg h5]
    rw [hca]
    have hw0 : w0 ≠ [] := pySplit_mem_ne_nil text w0 (by rw [hws]; simp)
    rw [speakerWordLoop_acc hspeak hexit c0 ws 1 w0 hw0 (by simpa using hpunct)]
    rw [intercalate_space_eq]

/-- Witness for C6 at the concrete clip text `"hello world"` played from the
empty conversation with `speaking`/`exit` never set. -/
theorem c6_sink_word_accounting_witness :
    speakerWordLoop (fun _ => false) (fun _ => false) (pySplit "hello world".toList) 0 [] =
      [] ++ [(Role.assistant, List.intercalate [' '] (pySplit "hello world".toList))] :=
  c6_sink_word_accounting "hello world".toList _ _ [] (fun _ => rfl) (fun _ => rfl)
    (by simp) (by decide) (by decide)

theorem cumDur_zero (q : List (ℚ × Str)) : cumDur q 0 = 0 := by simp [cumDur]

theorem cumDur_cons_succ (d : ℚ) (w : Str) (q : List (ℚ × Str)) (n : ℕ) :
    cumDur ((d, w) :: q) (n + 1) = d + cumDur q n := by
  simp [cumDur, List.take_succ_cons]

/-- Characterization of the `WordQueue.update` consumption loop: the words
appended to the conversation form a prefix of the queue, in order; an entry
is appended exactly when the elapsed time remaining on reaching it is
strictly positive and covers its whole duration — in particular the first
entry left unspoken, if any, fails that condition, so nothing more could
have been appended; a partially-covered head is put back with its duration
reduced by the elapsed time already applied to it; all later entries are
unchanged. -/
theorem wqConsume_spec : ∀ (q : List (ℚ × Str)) (e : ℚ),
    ∃ k, k ≤ q.length ∧
      (wqConsume e q).1 = (q.take k).map Prod.snd ∧
      (∀ i < k, cumDur q (i + 1) ≤ e ∧ cumDur q i < e) ∧
      (k < q.length → ¬(cumDur q k < e ∧ cumDur q (k + 1) ≤ e)) ∧
      ((wqConsume e q).2 =
        if h : k < q.length ∧ cumDur q k < e then
          ((q.get ⟨k, h.1⟩).1 - (e - cumDur q k), (q.get ⟨k, h.1⟩).2) :: q.drop (k + 1)
        else q.drop k) := by
  intro q
  induction q with
  | nil =>
    intro e
    refine ⟨0, by simp, by simp [wqConsume], by simp, by simp, ?_⟩
    rw [dif_neg (by simp)]
    simp [wqConsume]
  | cons dw rest ih =>
    obtain ⟨d, w⟩ := dw
    intro e
    by_cases he : e ≤ 0
    · have hcons : wqConsume e ((d, w) :: rest) = ([], (d, w) :: rest) := by
        rw [wqConsume, if_pos he]
      refine ⟨0, by simp, by rw [hcons]; simp, by simp, ?_, ?_⟩
      · intro _ hcon
        have h5 := hcon.1
        rw [cumDur_zero] at h5
        linarith
      · rw [hcons, dif_neg]
        · simp
        · intro hcon
          have h5 := hcon.2
          rw [cumDur_zero] at h5
          linarith
    · by_cases hd : e - d < 0
      · have hcons : wqConsume e ((d, w) :: rest) = ([], (-(e - d), w) :: rest) := by
          rw [wqConsume, if_neg he, if_pos hd]
        refine ⟨0, by simp, by rw [hcons]; simp, by simp, ?_, ?_⟩
        · intro _ hcon
          have h5 := hcon.2
          rw [cumDur_cons_succ, cumDur_zero] at h5
          linarith
        · rw [hcons, dif_pos ⟨by simp, by rw [cumDur_zero]; linarith⟩]
          show ((-(e - d), w) :: rest : List (ℚ × Str)) =
            (d - (e - cumDur ((d, w) :: rest) 0), w) :: rest
          rw [cumDur_zero]
          have h6 : -(e - d) = d - (e - 0) := by ring
          rw [h6]
      · obtain ⟨k, hk1, hk2, hk3, hk3b, hk4⟩ := ih (e - d)
        have hcons : wqConsume e ((d, w) :: rest) =
            (w :: (wqConsume (e - d) rest).1, (wqConsume (e - d) rest).2) := by
          rw [wqConsume, if_neg he, if_neg hd]
        refine ⟨k + 1, by simpa using hk1, ?_, ?_, ?_, ?_⟩
        · rw [hcons]
          simp only [List.take_succ_cons, List.map_cons]
          rw [hk2]
        · intro i hi
          cases i with
          | zero =>
            refine ⟨?_, ?_⟩
            · rw [cumDur_cons_succ, cumDur_zero]
              linarith
            · rw [cumDur_zero]
              linarith
          | succ j =>
            have hj : j < k := by omega
            obtain ⟨hA, hB⟩ := hk3 j hj
            refine ⟨?_, ?_⟩
            · rw [cumDur_cons_succ]
              linarith
            · rw [cumDur_cons_succ]
              linarith
        · intro hlen hcon
          apply hk3b (by simpa using hlen)
          refine ⟨?_, ?_⟩
          · have h5 := hcon.1
            rw [cumDur_cons_succ] at h5
            linarith
          · have h6 := hcon.2
            rw [cumDur_cons_succ] at h6
            linarith
        · rw [hcons]
          by_cases hc : k < rest.length ∧ cumDur rest k < e - d
          · rw [dif_pos hc] at hk4
            rw [dif_pos (show k + 1 < ((d, w) :: rest).length ∧
                cumDur ((d, w) :: rest) (k + 1) < e by
              refine ⟨by simpa using hc.1, ?_⟩
              rw [cumDur_cons_succ]
              linarith [hc.2])]
            rw [hk4]
            simp only [List.get_cons_succ, List.drop_succ_cons, cumDur_cons_succ]
            have h7 : (rest.get ⟨k, hc.1⟩).1 - (e - (d + cumDur rest k)) =
                (rest.get ⟨k, hc.1⟩).1 - (e - d - cumDur rest k) := by ring
            rw [h7]
          · rw [dif_neg hc] at hk4
            rw [dif_neg (show ¬(k + 1 < ((d, w) :: rest).length ∧
                cumDur ((d, w) :: rest) (k + 1) < e) by
              intro hcon
              apply hc
              refine ⟨by simpa using hcon.1, ?_⟩
              have h8 := hcon.2
              rw [cumDur_cons_succ] at h8
              linarith)]
            rw [hk4]
            rfl

/-- C8 (counterexample): with elapsed time exactly 1 and queue
`[(1, "a"), (0, "b")]`, the code appends only `"a"` and leaves `(0, "b")`
queued — although `"b"`'s remaining duration (0) is fully covered by the
remaining elapsed time (0) — because the loop stops as soon as the elapsed
time reaches zero; the claim's reading would append both words. -/
theorem c8_zero_duration_boundary_counterexample :
    wqConsume 1 [(1, "a".toList), (0, "b".toList)] =
      (["a".toList], [(0, "b".toList)]) ∧
      cumDur [(1, "a".toList), (0, "b".toList)] 2 ≤ 1 ∧
      (["a".toList], [(0, "b".toList)]) ≠
        (["a".toList, "b".toList], ([] : List (ℚ × Str))) := by
  refine ⟨?_, ?_, ?_⟩
  · norm_num [wqConsume]
  · norm_num [cumDur]
  · simp

/-- C8 (amended): `WordQueue.update` advances by `now - last_update_time`
and sets `last_update_time := now`; the words appended to the conversation
are a prefix of the queue, in order, each appended exactly when the elapsed
time remaining on reaching it is strictly positive and covers its whole
duration (so a zero-duration entry reached with exactly zero remaining
elapsed time is NOT appended), and the first entry left unspoken, if any,
fails that condition, so nothing more could have been appended; a
partially-covered first entry is put back at the head with its duration
reduced by the elapsed time already applied to it; all later entries are
unchanged. -/
theorem c8_word_queue_update (now : ℚ) (st : WQState) :
    (wqUpdate now st).1.lastUpdateTime = now ∧
    ∃ k, k ≤ st.wordQueue.length ∧
      (wqUpdate now st).2 = (st.wordQueue.take k).map Prod.snd ∧
      (∀ i < k, cumDur st.wordQueue (i + 1) ≤ now - st.lastUpdateTime ∧
        cumDur st.wordQueue i < now - st.lastUpdateTime) ∧
      (k < st.wordQueue.length →
        ¬(cumDur st.wordQueue k < now - st.lastUpdateTime ∧
          cumDur st.wordQueue (k + 1) ≤ now - st.lastUpdateTime)) ∧
      ((wqUpdate now st).1.wordQueue =
        if h : k < st.wordQueue.length ∧
            cumDur st.wordQueue k < now - st.lastUpdateTime then
          ((st.wordQueue.get ⟨k, h.1⟩).1 -
              (now - st.lastUpdateTime - cumDur st.wordQueue k),
            (st.wordQueue.get ⟨k, h.1⟩).2) :: st.wordQueue.drop (k + 1)
        else st.wordQueue.drop k) := by
  obtain ⟨k, h1, h2, h3, h3b, h4⟩ := wqConsume_spec st.wordQueue (now - st.lastUpdateTime)
  exact ⟨rfl, k, h1, h2, h3, h3b, h4⟩

/-- C9 (counterexample): fragment-boundary invariance fails when a fragment
ends with whitespace.  Streaming `"Hi. How are you?"` as
`["Hi. How ", "are you?"]` pushes `["Hi.", "Howare you?"]`: the splitter's
initial `strip()` eats the trailing space of the buffer `"Hi. How "`, so the
next fragment is glued to `"How"` without the separating space. -/
theorem c9_whitespace_fragmentation_counterexample :
    responderEmits (pureEvents ["Hi. How ".toList, "are you?".toList]) =
      ["Hi.".toList, "Howare you?".toList] ∧
      ["Hi.".toList, "Howare you?".toList] ≠ ["Hi.".toList, "How are you?".toList] := by
  decide

/-- C9 (amended): (1) for every sentence `complete` the splitter itself
emits and every string `r`, splitting `complete ++ r` yields `complete`
followed by exactly the sentences of splitting `r`, with the same final
remainder.  (2) Streaming `"Hi. How are you?"` in any fragmentation in which
no fragment ends with a whitespace character pushes exactly
`["Hi.", "How are you?"]` in that order. -/
theorem c9_splitter_streaming :
    (∀ complete r : Str, (∃ t, complete ∈ (segment_text_by_regex t).1) →
      segment_text_by_regex (complete ++ r) =
        (complete :: (segment_text_by_regex r).1, (segment_text_by_regex r).2)) ∧
    (∀ frags : List Str, frags.flatten = "Hi. How are you?".toList →
      (∀ f ∈ frags, rstrip f = f) →
      responderEmits (pureEvents frags) = ["Hi.".toList, "How are you?".toList]) := by
  constructor
  · intro complete r hc
    obtain ⟨t, ht⟩ := hc
    obtain ⟨hm, hl, hr, hab, hne⟩ := mem_segment_shape ht
    exact segment_append_of_emitted r hm hl hr hab hne
  · intro frags hcat hfr
    have h := responderTokenLoop_pure frags [] rfl rfl rfl hfr
    rw [List.nil_append, hcat] at h
    have hseg : segment_text_by_regex "Hi. How are you?".toList =
        (["Hi.".toList, "How are you?".toList], []) := by decide
    rw [hseg] at h
    unfold responderEmits
    rw [h]
    decide

/-- Witness for C9: part (1) at the emitted sentence `"Hi."` and the string
`" How are you?"`; part (2) at the concrete fragmentation
`["Hi. How", " are you?"]` (no fragment ends with whitespace). -/
theorem c9_splitter_streaming_witness :
    segment_text_by_regex ("Hi.".toList ++ " How are you?".toList) =
      ("Hi.".toList :: (segment_text_by_regex " How are you?".toList).1,
        (segment_text_by_regex " How are you?".toList).2) ∧
    responderEmits (pureEvents ["Hi. How".toList, " are you?".toList]) =
      ["Hi.".toList, "How are you?".toList] :=
  ⟨c9_splitter_streaming.1 "Hi.".toList " How are you?".toList
      ⟨"Hi.".toList, by decide⟩,
    c9_splitter_streaming.2 ["Hi. How".toList, " are you?".toList]
      (by decide) (by decide)⟩
